import Mathlib

/-!
Shallow embedding of the sysfs feature-source module of
node-feature-discovery (three variants: `src/source/sysfs/sysfs.go`, the
"simple" policy; `src/unnamed/part_000`; `src/unnamed/part_001`, the
"refined" policy), together with proofs about the properties claimed for
it.

Go strings are modelled as `List Char`; all the paths and contents the
module handles are byte strings, and Go's `len`, slicing and indexing act
on bytes, so a character of the list stands for one byte.  Fallible Go
functions returning `(T, error)` are modelled as `Except Unit T`.
-/

namespace Sysfs

/-- Character class `[-A-Za-z0-9]` of the Go regexes
`^[^-A-Za-z0-9]+` and `[^-A-Za-z0-9]+$` in `convertToLabel`
(part_001 lines 156-157): hyphen, upper- and lower-case letters, digits. -/
def validEdge (c : Char) : Bool :=
  c == '-' || (65 ≤ c.toNat && c.toNat ≤ 90) ||
  (97 ≤ c.toNat && c.toNat ≤ 122) || (48 ≤ c.toNat && c.toNat ≤ 57)

/-- Character class `[-A-Za-z0-9_.]` of the Go regex `[^-A-Za-z0-9_.]+`
(part_001 line 158, part_000 lines 149-150, sysfs.go line 93). -/
def validLabel (c : Char) : Bool :=
  validEdge c || c == '_' || c == '.'

/-- `inStringRe.ReplaceAllString(value, "_")` with pattern
`[^-A-Za-z0-9_.]+`: every maximal run of characters outside the class is
replaced by a single `_`.  The boolean argument records whether the
previous character was part of an invalid run (so that only the first
character of a run emits the `_`). -/
def collapseAux : Bool → List Char → List Char
  | _, [] => []
  | prev, c :: cs =>
    if validLabel c then c :: collapseAux false cs
    else if prev then collapseAux true cs
    else '_' :: collapseAux true cs

/-- `endsWithRe.ReplaceAllString(value, "")` with pattern
`[^-A-Za-z0-9]+$` generalised over the predicate: remove the maximal
trailing run of characters satisfying `p`. -/
def dropEndWhile (p : Char → Bool) (l : List Char) : List Char :=
  (l.reverse.dropWhile p).reverse

/-- `convertToLabel` of part_001 (lines 150-168): empty input is returned
unchanged; otherwise strip the leading run outside `[-A-Za-z0-9]`,
replace every interior run outside `[-A-Za-z0-9_.]` by one `_`, truncate
to 62 characters, and strip the trailing run outside `[-A-Za-z0-9]`. -/
def convertToLabel (s : List Char) : List Char :=
  if s.isEmpty then s
  else
    let v1 := s.dropWhile (fun c => !validEdge c)
    let v2 := collapseAux false v1
    let v3 := if v2.length > 62 then v2.take 62 else v2
    dropEndWhile (fun c => !validEdge c) v3

/-- The backtracking step of Go's `path.Clean` when a `..` element is
met and `out.w > dotdot`: `out.w--; for out.w > dotdot && out.index(out.w) != '/' { out.w-- }`.
The output buffer is kept in reverse (most recently written character
first), so decrementing `out.w` pops the head; the loop keeps popping
while the character just popped is not `/` and the buffer is still
longer than `dotdot`. -/
def popSegment (dotdot : Nat) : List Char → List Char
  | [] => []
  | c :: rest =>
    if rest.length > dotdot && c != '/' then popSegment dotdot rest else rest

/-- The main loop of Go's `filepath.Clean` (unix flavour, i.e.
`path.Clean`), used by `Discover` via `filepath.Clean` and
`filepath.Join`.  `outR` is the output buffer in reverse; `dotdot` is
the low-water mark below which `..` may not backtrack.  The `Nat`
argument is fuel bounding the number of loop iterations; every
iteration consumes at least one input character, so fuel equal to the
input length is enough. -/
def cleanCoreF (rooted : Bool) : Nat → List Char → List Char → Nat → List Char
  | 0, _, outR, _ => outR
  | _ + 1, [], outR, _ => outR
  | fuel + 1, c :: rest, outR, dotdot =>
    if c == '/' then
      -- empty path element: skip
      cleanCoreF rooted fuel rest outR dotdot
    else if c == '.' && (rest.isEmpty || rest.head? == some '/') then
      -- `.` element: skip
      cleanCoreF rooted fuel rest outR dotdot
    else if c == '.' && rest.head? == some '.' &&
        (rest.tail.isEmpty || rest.tail.head? == some '/') then
      -- `..` element: backtrack if possible
      let next :=
        if outR.length > dotdot then (popSegment dotdot outR, dotdot)
        else if !rooted then
          let out1 := if outR.length > 0 then '/' :: outR else outR
          let out2 := '.' :: '.' :: out1
          (out2, out2.length)
        else (outR, dotdot)
      cleanCoreF rooted fuel rest.tail next.1 next.2
    else
      -- real path element: add slash if needed, then copy the element
      let out1 :=
        if (rooted && outR.length != 1) || (!rooted && outR.length != 0)
        then '/' :: outR else outR
      let seg := (c :: rest).takeWhile (fun d => d != '/')
      cleanCoreF rooted fuel ((c :: rest).dropWhile (fun d => d != '/'))
        (seg.reverse ++ out1) dotdot

/-- Go `filepath.Clean` on unix: `Clean("") = "."`; a rooted path starts
the buffer with `/` and sets `r, dotdot = 1, 1`; an all-consumed empty
buffer yields `"."`. -/
def clean (path : List Char) : List Char :=
  match path with
  | [] => ['.']
  | c :: rest =>
    let out :=
      if c == '/' then cleanCoreF true rest.length rest ['/'] 1
      else cleanCoreF false (c :: rest).length (c :: rest) [] 0
    if out.isEmpty then ['.'] else out.reverse

/-- `strings.Replace(attr, "/", ".", -1)[1:]`: replace every separator
with a dot and drop the first character (sysfs.go line 136, part_000
line 132, part_001 line 135). -/
def dottedName (attr : List Char) : List Char :=
  (attr.map (fun c => if c == '/' then '.' else c)).drop 1

/-- `buildAttributeName` of sysfs.go and part_000 (simple policy): if
the dotted name is longer than 64, keep the last 64 characters
verbatim. -/
def buildAttributeName64 (attr : List Char) : List Char :=
  let name := dottedName attr
  if name.length > 64 then name.drop (name.length - 64) else name

/-- `buildAttributeName` of part_001 (refined policy, lines 133-148):
if the dotted name is longer than 55, set `start := len - 55` and cut
at `start + strings.Index(name[start:], ".") + 1`; `Index` is `-1` when
the window holds no dot, making the offset `0`. -/
def buildAttributeName55 (attr : List Char) : List Char :=
  let name := dottedName attr
  if name.length > 55 then
    let start := name.length - 55
    let offset :=
      match (name.drop start).findIdx? (fun c => c == '.') with
      | some i => i + 1
      | none => 0
    name.drop (start + offset)
  else name

/-- `unicode.IsSpace` restricted to the Latin-1 range, as used by
`strings.TrimSpace` in sysfs.go line 154: space, tab, newline, vertical
tab, form feed, carriage return, NEL (U+0085) and NBSP (U+00A0). -/
def isSpace (c : Char) : Bool :=
  c == ' ' || c == '\t' || c == '\n' || c.toNat == 11 || c.toNat == 12 ||
  c == '\r' || c.toNat == 133 || c.toNat == 160

/-- `strings.TrimSpace`: remove leading and trailing whitespace. -/
def trimSpace (l : List Char) : List Char :=
  dropEndWhile isSpace (l.dropWhile isSpace)

/-- Outcome of statting/opening/reading one node of the sysfs-like
tree, the module's only filesystem collaborator.  `fileOk data` is a
regular readable file with the given content; `filePermDenied` is an
existing regular file whose open/read fails with `EACCES`;
`fileReadErr` is a regular file whose open succeeds but whose read
fails with some other error. -/
inductive FsNode where
  | notFound
  | dir
  | filePermDenied
  | fileReadErr
  | fileOk (data : List Char)

/-- The filesystem under the resolved tree root, keyed by the cleaned
logical path handed to `hostpath.SysfsDir.Path` (the external
root-resolution collaborator composed with the node lookup). -/
def Fs : Type := List Char → FsNode

/-- Go `filepath.IsAbs` on unix: nonempty and starting with `/`. -/
def isAbs (p : List Char) : Bool := p.head? == some '/'

/-- Go `filepath.Join("/", p)`: the non-empty elements `"/"` and `p`
joined with a separator, then cleaned — that is, `Clean("//" + p)`
(also for empty `p`, where `Join("/", "") = Clean("/")` and
`Clean("//") = "/"` coincide). -/
def joinRoot (p : List Char) : List Char := clean ('/' :: '/' :: p)

/-- The per-entry path normalization of `Discover`: make the entry
absolute by joining it under `/` when it is relative, then clean it
(sysfs.go lines 111-113, part_000 lines 109-113, part_001 lines
111-115).  The result is both the key of the root-resolution lookup
and the input of `buildAttributeName`. -/
def rootJoinClean (p : List Char) : List Char :=
  clean (if isAbs p then p else joinRoot p)

/-- The extra first step of part_001's `Discover` (lines 107-109):
`strings.HasPrefix(attr, "/sys")` causes `attr = attr[4:]`. -/
def stripSysPre (p : List Char) : List Char :=
  if p.take 4 == "/sys".toList then p.drop 4 else p

/-- `readSingleParameter` of sysfs.go (lines 145-160): `os.Open`, one
`file.Read` into a 62-byte buffer, `strings.TrimSpace`.  `os.Open`
fails on a missing or permission-denied node; `file.Read` on a
directory fails with `EISDIR`, and on an empty regular file returns
`io.EOF`, both of which the code reports as errors. -/
def readSingleParameter_simple (node : FsNode) : Except Unit (List Char) :=
  match node with
  | .notFound => .error ()
  | .filePermDenied => .error ()
  | .fileReadErr => .error ()
  | .dir => .error ()
  | .fileOk data =>
    if data.isEmpty then .error ()
    else .ok (trimSpace (data.take 62))

/-- `readSingleParameter` of part_001 (lines 171-196): `os.Stat` error
is reported; a directory yields an empty value; `os.ReadFile` failing
with `os.IsPermission` yields an empty value, any other read error is
reported; content is passed through `convertToLabel`. -/
def readSingleParameter_refined (node : FsNode) : Except Unit (List Char) :=
  match node with
  | .notFound => .error ()
  | .dir => .ok []
  | .filePermDenied => .ok []
  | .fileReadErr => .error ()
  | .fileOk data => .ok (convertToLabel data)

/-- One iteration of the `Discover` loop of sysfs.go (lines 107-131):
normalize the path, read the node at the resolved path, and on success
produce the `(name, value)` element; on failure the entry is logged
and skipped. -/
def discoverStep_simple (fs : Fs) (attr : List Char) :
    Option (List Char × List Char) :=
  let a := rootJoinClean attr
  match readSingleParameter_simple (fs a) with
  | .error _ => none
  | .ok v => some (buildAttributeName64 a, v)

/-- One iteration of the `Discover` loop of part_001 (lines 106-128):
as for sysfs.go but with the `/sys` prefix strip, the refined reader
and the 55-cap name. -/
def discoverStep_refined (fs : Fs) (attr : List Char) :
    Option (List Char × List Char) :=
  let a := rootJoinClean (stripSysPre attr)
  match readSingleParameter_refined (fs a) with
  | .error _ => none
  | .ok v => some (buildAttributeName55 a, v)

/-- The element list written into `Features.Attributes["attribute"].Elements`
by a full `Discover` run over the whitelist, in insertion order (a
later element with the same name overwrites an earlier one in the Go
map). -/
def resultSet_simple (fs : Fs) (wl : List (List Char)) :
    List (List Char × List Char) :=
  wl.filterMap (discoverStep_simple fs)

/-- Refined-policy analogue of `resultSet_simple` for part_001. -/
def resultSet_refined (fs : Fs) (wl : List (List Char)) :
    List (List Char × List Char) :=
  wl.filterMap (discoverStep_refined fs)

/-- `Discover` of sysfs.go: rebuilds the result set and unconditionally
returns `nil` (line 132). -/
def discover_simple (fs : Fs) (wl : List (List Char)) :
    Except Unit (List (List Char × List Char)) :=
  .ok (resultSet_simple fs wl)

/-- `Discover` of part_001: rebuilds the result set and unconditionally
returns `nil` (line 130). -/
def discover_refined (fs : Fs) (wl : List (List Char)) :
    Except Unit (List (List Char × List Char)) :=
  .ok (resultSet_refined fs wl)

/-- `re.ReplaceAllString(s, "_")` with `re = [^-A-Za-z0-9_.]` (no
quantifier), as in `GetLabels` of sysfs.go line 93: each single
character outside the class becomes one `_`. -/
def coarseSanitize (l : List Char) : List Char :=
  l.map (fun c => if validLabel c then c else '_')

/-- `GetLabels` of sysfs.go (lines 89-102): both key and value go
through the coarse regex pass before being stored. -/
def getLabels_sysfs (elems : List (List Char × List Char)) :
    List (List Char × List Char) :=
  elems.map (fun kv => (coarseSanitize kv.1, coarseSanitize kv.2))

/-- `GetLabels` of part_000 (lines 89-98): a plain copy of the element
map, with no sanitization pass. -/
def getLabels_part000 (elems : List (List Char × List Char)) :
    List (List Char × List Char) :=
  elems.map (fun kv => (kv.1, kv.2))

/-- `GetLabels` of part_001 (lines 89-98): a plain copy of the element
map, with no sanitization pass. -/
def getLabels_part001 (elems : List (List Char × List Char)) :
    List (List Char × List Char) :=
  elems.map (fun kv => (kv.1, kv.2))

end Sysfs

namespace Sysfs

theorem underscoreValidLabel : validLabel '_' = true := by decide

theorem mem_collapseAux {c : Char} :
    ∀ (prev : Bool) (l : List Char), c ∈ collapseAux prev l → validLabel c = true := by
  intro prev l
  induction l generalizing prev with
  | nil => intro h; simp [collapseAux] at h
  | cons a as ih =>
    intro h
    by_cases ha : validLabel a = true
    · simp only [collapseAux, ha, if_true] at h
      rcases List.mem_cons.mp h with h1 | h2
      · exact h1 ▸ ha
      · exact ih false h2
    · simp only [collapseAux, ha, if_false, Bool.false_eq_true] at h
      cases prev with
      | true => simpa using ih true (by simpa using h)
      | false =>
        rcases List.mem_cons.mp (by simpa using h) with h1 | h2
        · exact h1 ▸ underscoreValidLabel
        · exact ih true h2

theorem collapseAux_of_all_valid {l : List Char}
    (h : ∀ c ∈ l, validLabel c = true) : ∀ prev, collapseAux prev l = l := by
  induction l with
  | nil => intro prev; rfl
  | cons a as ih =>
    intro prev
    have ha : validLabel a = true := h a (List.mem_cons_self a as)
    simp only [collapseAux, ha, if_true]
    exact congrArg _ (ih (fun c hc => h c (List.mem_cons_of_mem a hc)) false)

theorem collapseAux_head {a : Char} {l : List Char} (ha : validLabel a = true)
    (prev : Bool) : (collapseAux prev (a :: l)).head? = some a := by
  simp [collapseAux, ha]

theorem head_dropWhileP {p : Char → Bool} {c : Char} :
    ∀ {l : List Char}, (l.dropWhile p).head? = some c → p c = false := by
  intro l
  induction l with
  | nil => intro h; simp [List.dropWhile] at h
  | cons a as ih =>
    intro h
    by_cases hp : p a = true
    · exact ih (by simpa [List.dropWhile, hp] using h)
    · have : a = c := by
        simpa [List.dropWhile, hp] using h
      subst this
      simpa using hp

theorem mem_dropWhileP {p : Char → Bool} {c : Char} :
    ∀ {l : List Char}, c ∈ l.dropWhile p → c ∈ l := by
  intro l
  induction l with
  | nil => intro h; simp [List.dropWhile] at h
  | cons a as ih =>
    intro h
    by_cases hp : p a = true
    · exact List.mem_cons_of_mem a (ih (by simpa [List.dropWhile, hp] using h))
    · simpa [List.dropWhile, hp] using h

theorem length_dropWhileP (p : Char → Bool) :
    ∀ (l : List Char), (l.dropWhile p).length ≤ l.length := by
  intro l
  induction l with
  | nil => simp [List.dropWhile]
  | cons a as ih =>
    by_cases hp : p a = true
    · simp only [List.dropWhile, hp]
      exact le_trans ih (Nat.le_succ _)
    · simp [List.dropWhile, hp]

theorem dropWhile_eq_self_of_headP {p : Char → Bool} {a : Char} {l : List Char}
    (h : p a = false) : (a :: l).dropWhile p = a :: l := by
  simp [List.dropWhile, h]

theorem getLast?_dropWhileP {p : Char → Bool} :
    ∀ {l : List Char}, l.dropWhile p ≠ [] → (l.dropWhile p).getLast? = l.getLast? := by
  intro l
  induction l with
  | nil => intro h; simp [List.dropWhile] at h
  | cons a as ih =>
    intro h
    by_cases hp : p a = true
    · have hne : as.dropWhile p ≠ [] := by
        simpa [List.dropWhile, hp] using h
      have has : as ≠ [] := by
        intro hnil; rw [hnil] at hne; simp [List.dropWhile] at hne
      obtain ⟨b, bs, rfl⟩ := List.exists_cons_of_ne_nil has
      rw [List.dropWhile_cons_of_pos (by simpa using hp), ih hne,
        List.getLast?_cons_cons]
    · rw [dropWhile_eq_self_of_headP (by simpa using hp)]

theorem length_dropEndWhile (p : Char → Bool) (l : List Char) :
    (dropEndWhile p l).length ≤ l.length := by
  unfold dropEndWhile
  rw [List.length_reverse]
  exact le_trans (length_dropWhileP p l.reverse) (by rw [List.length_reverse])

theorem mem_dropEndWhile {p : Char → Bool} {c : Char} {l : List Char}
    (h : c ∈ dropEndWhile p l) : c ∈ l := by
  unfold dropEndWhile at h
  rw [List.mem_reverse] at h
  exact List.mem_reverse.mp (mem_dropWhileP h)

theorem head?_dropEndWhile {p : Char → Bool} {l : List Char}
    (h : dropEndWhile p l ≠ []) : (dropEndWhile p l).head? = l.head? := by
  unfold dropEndWhile at h ⊢
  have hne : l.reverse.dropWhile p ≠ [] := by
    intro hnil; rw [hnil] at h; exact h rfl
  rw [List.head?_reverse, getLast?_dropWhileP hne, List.getLast?_reverse]

theorem getLast?_dropEndWhile {p : Char → Bool} {c : Char} {l : List Char}
    (h : (dropEndWhile p l).getLast? = some c) : p c = false := by
  unfold dropEndWhile at h
  rw [List.getLast?_reverse] at h
  exact head_dropWhileP h

theorem dropEndWhile_eq_self {p : Char → Bool} {c : Char} {l : List Char}
    (hl : l.getLast? = some c) (hc : p c = false) : dropEndWhile p l = l := by
  unfold dropEndWhile
  have hrev : l.reverse.head? = some c := by rw [List.head?_reverse]; exact hl
  obtain ⟨a, as, hcons⟩ : ∃ a as, l.reverse = a :: as := by
    cases hrev' : l.reverse with
    | nil => rw [hrev'] at hrev; simp at hrev
    | cons a as => exact ⟨a, as, rfl⟩
  have ha : a = c := by rw [hcons] at hrev; simpa using hrev
  rw [hcons, dropWhile_eq_self_of_headP (ha ▸ hc), ← hcons, List.reverse_reverse]

theorem head?_take {l : List Char} {n : Nat} (h : 0 < n) :
    (l.take n).head? = l.head? := by
  cases l with
  | nil => simp
  | cons a as =>
    cases n with
    | zero => exact absurd h (by simp)
    | succ m => simp [List.take]

theorem convertToLabel_length (s : List Char) : (convertToLabel s).length ≤ 62 := by
  unfold convertToLabel
  by_cases hs : s.isEmpty
  · simp only [hs, if_true]
    have := List.isEmpty_iff.mp hs
    simp [this]
  · simp only [hs, if_false, Bool.false_eq_true]
    set v2 := collapseAux false (s.dropWhile (fun c => !validEdge c)) with hv2
    by_cases hlen : v2.length > 62
    · simp only [hlen, if_true]
      refine le_trans (length_dropEndWhile _ _) ?_
      rw [List.length_take]
      exact min_le_left _ _
    · simp only [hlen, if_false]
      exact le_trans (length_dropEndWhile _ _) (Nat.le_of_not_lt hlen)

theorem convertToLabel_mem {s : List Char} {c : Char}
    (h : c ∈ convertToLabel s) : validLabel c = true := by
  unfold convertToLabel at h
  by_cases hs : s.isEmpty
  · simp only [hs, if_true] at h
    rw [List.isEmpty_iff.mp hs] at h
    simp at h
  · simp only [hs, if_false, Bool.false_eq_true] at h
    set v1 := s.dropWhile (fun c => !validEdge c) with hv1
    set v2 := collapseAux false v1 with hv2
    by_cases hlen : v2.length > 62
    · simp only [hlen, if_true] at h
      exact mem_collapseAux false v1 (List.take_subset _ _ (mem_dropEndWhile h))
    · simp only [hlen, if_false] at h
      exact mem_collapseAux false v1 (mem_dropEndWhile h)

theorem convertToLabel_head? {s : List Char} {c : Char}
    (h : (convertToLabel s).head? = some c) : validEdge c = true := by
  unfold convertToLabel at h
  by_cases hs : s.isEmpty
  · simp only [hs, if_true] at h
    rw [List.isEmpty_iff.mp hs] at h
    simp at h
  · simp only [hs, if_false, Bool.false_eq_true] at h
    set v1 := s.dropWhile (fun c => !validEdge c) with hv1
    set v2 := collapseAux false v1 with hv2
    set v3 := if v2.length > 62 then v2.take 62 else v2 with hv3
    have hne : dropEndWhile (fun c => !validEdge c) v3 ≠ [] := by
      intro hnil; rw [hnil] at h; simp at h
    rw [head?_dropEndWhile hne] at h
    have hv3head : v3.head? = v2.head? := by
      rw [hv3]
      by_cases hlen : v2.length > 62
      · simp only [hlen, if_true]
        exact head?_take (by norm_num)
      · simp [hlen]
    rw [hv3head] at h
    cases hv1c : v1 with
    | nil =>
      rw [hv2, hv1c] at h
      simp [collapseAux] at h
    | cons a as =>
      have haE : validEdge a = true := by
        have : v1.head? = some a := by rw [hv1c]; rfl
        have := head_dropWhileP (hv1 ▸ this)
        simpa using this
      have : v2.head? = some a := by
        rw [hv2, hv1c]
        exact collapseAux_head (by simp [validLabel, haE]) false
      rw [this] at h
      exact (Option.some_inj.mp h) ▸ haE

theorem convertToLabel_getLast? {s : List Char} {c : Char}
    (h : (convertToLabel s).getLast? = some c) : validEdge c = true := by
  unfold convertToLabel at h
  by_cases hs : s.isEmpty
  · simp only [hs, if_true] at h
    rw [List.isEmpty_iff.mp hs] at h
    simp at h
  · simp only [hs, if_false, Bool.false_eq_true] at h
    have := getLast?_dropEndWhile h
    simpa using this

theorem convertToLabel_fix {y : List Char}
    (hmem : ∀ c ∈ y, validLabel c = true) (hlen : y.length ≤ 62)
    (hhead : ∀ c, y.head? = some c → validEdge c = true)
    (hlast : ∀ c, y.getLast? = some c → validEdge c = true) :
    convertToLabel y = y := by
  cases y with
  | nil => rfl
  | cons a as =>
    have haE : validEdge a = true := hhead a rfl
    obtain ⟨d, hd⟩ : ∃ d, (a :: as).getLast? = some d :=
      ⟨(a :: as).getLast (by simp), List.getLast?_eq_getLast _ _⟩
    have hdE : validEdge d = true := hlast d hd
    unfold convertToLabel
    simp only [List.isEmpty_cons, if_false, Bool.false_eq_true]
    rw [dropWhile_eq_self_of_headP (by simpa using haE),
      collapseAux_of_all_valid hmem false]
    have h3 : ¬ (a :: as).length > 62 := Nat.not_lt.mpr hlen
    simp only [h3, if_false]
    exact dropEndWhile_eq_self hd (by simpa using hdE)

theorem findIdx?_found {p : Char → Bool} :
    ∀ (l : List Char) (i j : Nat), List.findIdx? p l i = some j →
      i ≤ j ∧ ∃ a, l[j - i]? = some a ∧ p a = true := by
  intro l
  induction l with
  | nil => intro i j h; simp [List.findIdx?] at h
  | cons a as ih =>
    intro i j h
    by_cases hp : p a = true
    · have hij : i = j := by simpa [List.findIdx?, hp] using h
      subst hij
      exact ⟨le_refl i, a, by simp, hp⟩
    · have h' : List.findIdx? p as (i + 1) = some j := by
        simpa [List.findIdx?, hp] using h
      obtain ⟨hle, b, hb, hpb⟩ := ih (i + 1) j h'
      refine ⟨le_trans (Nat.le_succ i) hle, b, ?_, hpb⟩
      have hk : j - i = (j - (i + 1)) + 1 := by omega
      rw [hk, List.getElem?_cons_succ]
      exact hb

theorem ne_nil_of_getLast? {l : List Char} {c : Char}
    (h : l.getLast? = some c) : l ≠ [] := by
  intro hnil; rw [hnil] at h; simp at h

theorem getLast?_cons_keep {l : List Char} {a c : Char}
    (h : l.getLast? = some c) : (a :: l).getLast? = some c := by
  obtain ⟨b, bs, rfl⟩ := List.exists_cons_of_ne_nil (ne_nil_of_getLast? h)
  rw [List.getLast?_cons_cons]
  exact h

theorem popSegment_getLast {dd : Nat} (hdd : 1 ≤ dd) :
    ∀ (l : List Char), dd < l.length → l.getLast? = some '/' →
      (popSegment dd l).getLast? = some '/' := by
  intro l
  induction l with
  | nil => intro h; simp at h
  | cons c rest ih =>
    intro hlen hl
    have hrest : rest ≠ [] := by
      intro hnil
      rw [hnil] at hlen
      simp at hlen
      omega
    have hlrest : rest.getLast? = some '/' := by
      obtain ⟨b, bs, rfl⟩ := List.exists_cons_of_ne_nil hrest
      rw [List.getLast?_cons_cons] at hl
      exact hl
    unfold popSegment
    by_cases hb : (decide (rest.length > dd) && (c != '/')) = true
    · simp only [hb, if_true]
      have : dd < rest.length := by
        rcases Bool.and_eq_true_iff.mp hb with ⟨hb1, _⟩
        exact of_decide_eq_true hb1
      exact ih this hlrest
    · simp only [hb, if_false, Bool.false_eq_true]
      exact hlrest

theorem cleanCoreF_getLast :
    ∀ (fuel : Nat) (input outR : List Char), outR.getLast? = some '/' →
      (cleanCoreF true fuel input outR 1).getLast? = some '/' := by
  intro fuel
  induction fuel with
  | zero => intro input outR h; exact h
  | succ n ih =>
    intro input outR h
    match input with
    | [] => exact h
    | c :: rest =>
      unfold cleanCoreF
      by_cases h1 : (c == '/') = true
      · simp only [h1, if_true]
        exact ih rest outR h
      · simp only [h1, if_false, Bool.false_eq_true]
        by_cases h2 : (c == '.' && (rest.isEmpty || rest.head? == some '/')) = true
        · simp only [h2, if_true]
          exact ih rest outR h
        · simp only [h2, if_false, Bool.false_eq_true]
          by_cases h3 : (c == '.' && rest.head? == some '.' &&
              (rest.tail.isEmpty || rest.tail.head? == some '/')) = true
          · simp only [h3, if_true]
            by_cases h4 : outR.length > 1
            · simp only [h4, if_true]
              exact ih rest.tail _ (popSegment_getLast (le_refl 1) outR h4 h)
            · simp only [h4, if_false, Bool.not_true]
              exact ih rest.tail outR h
          · simp only [h3, if_false, Bool.false_eq_true]
            apply ih
            have hout1 : (if (true && outR.length != 1) || (!true && outR.length != 0)
                then '/' :: outR else outR).getLast? = some '/' := by
              by_cases h5 : ((true && outR.length != 1) || (!true && outR.length != 0)) = true
              · simp only [h5, if_true]
                exact getLast?_cons_keep h
              · simp only [h5, if_false, Bool.false_eq_true]
                exact h
            rw [List.getLast?_append_of_ne_nil _ (ne_nil_of_getLast? hout1)]
            exact hout1

theorem clean_rooted : ∀ {q : List Char}, q.head? = some '/' →
    (clean q).head? = some '/' := by
  intro q h
  match q with
  | [] => simp at h
  | c :: rest =>
    have hc : c = '/' := by simpa using h
    subst hc
    unfold clean
    simp only [beq_self_eq_true, if_true]
    have hlast := cleanCoreF_getLast rest.length rest ['/'] (by simp)
    have hne : cleanCoreF true rest.length rest ['/'] 1 ≠ [] :=
      ne_nil_of_getLast? hlast
    simp only [List.isEmpty_eq_true, hne, if_false]
    rw [List.head?_reverse]
    exact hlast

theorem clean_slash_slash (p : List Char) :
    clean ('/' :: '/' :: p) = clean ('/' :: p) := by
  unfold clean
  simp only [beq_self_eq_true, if_true, List.length_cons]
  have hstep : cleanCoreF true (p.length + 1) ('/' :: p) ['/'] 1 =
      cleanCoreF true p.length p ['/'] 1 := rfl
  rw [hstep]

/-- C1, counterexample.  For the cleaned absolute path `/ab/` followed
by 56 `c`s, the final 55-character window of the dotted name holds no
`.`; `buildAttributeName55` then returns the full 55-character window —
a mid-segment cut of exact cap length — not a result shorter than the
cap as the claim states. -/
theorem c1_counterexample :
    clean ("/ab/".toList ++ List.replicate 56 'c') =
      "/ab/".toList ++ List.replicate 56 'c' ∧
    isAbs ("/ab/".toList ++ List.replicate 56 'c') = true ∧
    55 < (dottedName ("/ab/".toList ++ List.replicate 56 'c')).length ∧
    List.findIdx? (fun c => c == '.')
      ((dottedName ("/ab/".toList ++ List.replicate 56 'c')).drop
        ((dottedName ("/ab/".toList ++ List.replicate 56 'c')).length - 55)) = none ∧
    buildAttributeName55 ("/ab/".toList ++ List.replicate 56 'c') =
      List.replicate 55 'c' ∧
    (buildAttributeName55 ("/ab/".toList ++ List.replicate 56 'c')).length = 55 := by
  refine ⟨by decide, by decide, by decide, by decide, by decide, by decide⟩

/-- C1, amended.  When the dotted form of the path exceeds 55
characters, part_001's `buildAttributeName` cuts at the first `.` of
the final 55-character window when one exists — the kept suffix then
begins immediately after a `.` of the dotted path; when the window
holds no `.`, the result is the exact 55-character window (a plain
mid-segment truncation), not a shorter-than-cap suffix. -/
theorem c1_boundary_cut (attr : List Char)
    (h : 55 < (dottedName attr).length) :
    (∀ i, List.findIdx? (fun c => c == '.')
        ((dottedName attr).drop ((dottedName attr).length - 55)) = some i →
      (dottedName attr)[(dottedName attr).length - 55 + i]? = some '.' ∧
      buildAttributeName55 attr =
        (dottedName attr).drop ((dottedName attr).length - 55 + i + 1)) ∧
    (List.findIdx? (fun c => c == '.')
        ((dottedName attr).drop ((dottedName attr).length - 55)) = none →
      buildAttributeName55 attr =
        (dottedName attr).drop ((dottedName attr).length - 55)) := by
  constructor
  · intro i hi
    obtain ⟨-, a, ha, hpa⟩ := findIdx?_found _ 0 i hi
    have hai : ((dottedName attr).drop ((dottedName attr).length - 55))[i]? = some a := by
      simpa using ha
    have haeq : a = '.' := by simpa using hpa
    subst haeq
    rw [List.getElem?_drop] at hai
    refine ⟨hai, ?_⟩
    unfold buildAttributeName55
    simp only [gt_iff_lt, h, if_true, hi]
    rw [Nat.add_assoc]
  · intro hn
    unfold buildAttributeName55
    simp only [gt_iff_lt, h, if_true, hn, Nat.add_zero]

/-- C1, witness for the amended theorem at the path
`/aaaa/` + 25 `b`s + `/` + 25 `c`s, whose dotted name has length 56 and
first window dot at index 3. -/
theorem c1_boundary_cut_witness :
    (dottedName ("/aaaa/".toList ++ List.replicate 25 'b' ++
        '/' :: List.replicate 25 'c'))[4]? = some '.' ∧
    buildAttributeName55 ("/aaaa/".toList ++ List.replicate 25 'b' ++
        '/' :: List.replicate 25 'c') =
      (dottedName ("/aaaa/".toList ++ List.replicate 25 'b' ++
        '/' :: List.replicate 25 'c')).drop 5 :=
  (c1_boundary_cut ("/aaaa/".toList ++ List.replicate 25 'b' ++
    '/' :: List.replicate 25 'c') (by decide)).1 3 (by decide)

/-- C2, counterexample.  The edge-stripping regexes keep `-`
(the class is `[^-A-Za-z0-9]`), so the sanitizer output can begin and
end with the punctuation character `-`: `convertToLabel "-a" = "-a"`. -/
theorem c2_counterexample :
    convertToLabel "-a".toList = "-a".toList ∧
    (convertToLabel "-a".toList).head? = some '-' ∧
    (convertToLabel "-".toList).getLast? = some '-' := by
  refine ⟨by decide, by decide, by decide⟩

/-- C2, amended.  `convertToLabel` output has length at most 62, every
character in `[-A-Za-z0-9_.]`, and first and last characters (when
present) in `[-A-Za-z0-9]` — so it never starts or ends with `_` or
`.`, but it may start or end with the hyphen. -/
theorem c2_sanitizer_bounds (s : List Char) :
    (convertToLabel s).length ≤ 62 ∧
    (convertToLabel s).all validLabel = true ∧
    (convertToLabel s).head?.all validEdge = true ∧
    (convertToLabel s).getLast?.all validEdge = true := by
  refine ⟨convertToLabel_length s, ?_, ?_, ?_⟩
  · rw [List.all_eq_true]
    intro c hc
    exact convertToLabel_mem hc
  · cases hh : (convertToLabel s).head? with
    | none => rfl
    | some c => simpa using convertToLabel_head? hh
  · cases hh : (convertToLabel s).getLast? with
    | none => rfl
    | some c => simpa using convertToLabel_getLast? hh

/-- C3, counterexample.  `/.foo` is a cleaned absolute path (a hidden
file at the tree root), and both `buildAttributeName` variants give it
the name `.foo`, which begins with `.`. -/
theorem c3_counterexample :
    clean "/.foo".toList = "/.foo".toList ∧
    isAbs "/.foo".toList = true ∧
    (buildAttributeName64 "/.foo".toList).head? = some '.' ∧
    (buildAttributeName55 "/.foo".toList).head? = some '.' := by
  refine ⟨by decide, by decide, by decide, by decide⟩

/-- C3, amended.  Both `buildAttributeName` variants respect their
length caps — 64 for the simple policy of sysfs.go and part_000, 55
for the refined policy of part_001 — but the name can begin with `.`
(for a first segment starting with a dot, and after truncation). -/
theorem c3_name_caps (attr : List Char) :
    (buildAttributeName64 attr).length ≤ 64 ∧
    (buildAttributeName55 attr).length ≤ 55 := by
  constructor
  · unfold buildAttributeName64
    by_cases h : (dottedName attr).length > 64
    · simp only [h, if_true, List.length_drop]
      omega
    · simp only [h, if_false]
      omega
  · unfold buildAttributeName55
    by_cases h : (dottedName attr).length > 55
    · simp only [h, if_true, List.length_drop]
      omega
    · simp only [h, if_false]
      omega

/-- C4.  The refined value sanitizer of part_001 is idempotent: every
stage of `convertToLabel` is the identity on a string satisfying the
output invariants proved above. -/
theorem c4_sanitizer_idempotent (s : List Char) :
    convertToLabel (convertToLabel s) = convertToLabel s :=
  convertToLabel_fix (fun _ hc => convertToLabel_mem hc)
    (convertToLabel_length s) (fun _ hc => convertToLabel_head? hc)
    (fun _ hc => convertToLabel_getLast? hc)

theorem mem_coarseSanitize {l : List Char} {c : Char}
    (h : c ∈ coarseSanitize l) : validLabel c = true := by
  obtain ⟨d, -, rfl⟩ := List.mem_map.mp h
  by_cases hd : validLabel d = true
  · simp only [hd, if_true]
  · simp only [hd, if_false, Bool.false_eq_true]
    exact underscoreValidLabel

/-- C5, counterexample.  `GetLabels` of part_001 (and of part_000)
hands the element map out unchanged: a key and value containing a
space — a character outside `[-A-Za-z0-9_.]` — pass through without
any replacement, so the coarse regex pass is not applied in all three
variants. -/
theorem c5_counterexample :
    getLabels_part001 [("a b".toList, "c d".toList)] =
      [("a b".toList, "c d".toList)] ∧
    getLabels_part000 [("a b".toList, "c d".toList)] =
      [("a b".toList, "c d".toList)] ∧
    validLabel ' ' = false := by
  refine ⟨by decide, by decide, by decide⟩

/-- C5, amended.  Only the sysfs.go variant of `GetLabels` applies the
coarse `[^-A-Za-z0-9_.]` → `_` pass (to both key and value of every
element); the part_000 and part_001 variants return the elements
unchanged. -/
theorem c5_coarse_pass (elems : List (List Char × List Char)) :
    ((getLabels_sysfs elems).all fun kv =>
      kv.1.all validLabel && kv.2.all validLabel) = true ∧
    getLabels_part000 elems = elems ∧
    getLabels_part001 elems = elems := by
  refine ⟨?_, ?_, ?_⟩
  · rw [List.all_eq_true]
    intro kv hkv
    obtain ⟨kv0, -, rfl⟩ := List.mem_map.mp hkv
    rw [Bool.and_eq_true, List.all_eq_true, List.all_eq_true]
    exact ⟨fun c hc => mem_coarseSanitize hc, fun c hc => mem_coarseSanitize hc⟩
  · simp [getLabels_part000]
  · simp [getLabels_part001]

/-- C6.  A whitelist entry resolving to a directory: part_001's
`readSingleParameter` stats it, sees a directory and returns an empty
value, so `Discover` records an element with empty value; sysfs.go's
`readSingleParameter` opens it but the read fails (`EISDIR`), so the
entry is skipped. -/
theorem c6_directory (fs : Fs) (p : List Char)
    (h1 : fs (rootJoinClean (stripSysPre p)) = FsNode.dir)
    (h2 : fs (rootJoinClean p) = FsNode.dir) :
    discoverStep_refined fs p =
      some (buildAttributeName55 (rootJoinClean (stripSysPre p)), []) ∧
    discoverStep_simple fs p = none := by
  constructor
  · simp only [discoverStep_refined, h1]
    rfl
  · simp only [discoverStep_simple, h2]
    rfl

/-- C6, witness at the entry `a` on a tree whose every node is a
directory. -/
theorem c6_directory_witness :
    discoverStep_refined (fun _ => FsNode.dir) "a".toList =
      some (buildAttributeName55 (rootJoinClean (stripSysPre "a".toList)), []) ∧
    discoverStep_simple (fun _ => FsNode.dir) "a".toList = none :=
  c6_directory (fun _ => FsNode.dir) "a".toList rfl rfl

/-- C7.  Under the refined policy, an existing regular file whose read
fails with permission denied yields an element with empty value: the
stat succeeds, `os.ReadFile` fails, `os.IsPermission` makes
`readSingleParameter` return `("", nil)`, and `Discover` records the
entry. -/
theorem c7_perm_denied (fs : Fs) (p : List Char)
    (h : fs (rootJoinClean (stripSysPre p)) = FsNode.filePermDenied) :
    discoverStep_refined fs p =
      some (buildAttributeName55 (rootJoinClean (stripSysPre p)), []) := by
  simp only [discoverStep_refined, h]
  rfl

/-- C7, witness at the entry `a` on a tree whose every node is a
permission-denied file. -/
theorem c7_perm_denied_witness :
    discoverStep_refined (fun _ => FsNode.filePermDenied) "a".toList =
      some (buildAttributeName55 (rootJoinClean (stripSysPre "a".toList)), []) :=
  c7_perm_denied (fun _ => FsNode.filePermDenied) "a".toList rfl

/-- C8.  A whitelist entry whose path resolves to no existing node
produces no element in either variant: the read reports an error, the
loop continues with the remaining entries, and `Discover` still
returns `nil`. -/
theorem c8_missing_entry (fs : Fs) (p : List Char) (wl1 wl2 : List (List Char))
    (h1 : fs (rootJoinClean p) = FsNode.notFound)
    (h2 : fs (rootJoinClean (stripSysPre p)) = FsNode.notFound) :
    discover_simple fs (wl1 ++ p :: wl2) =
      Except.ok (resultSet_simple fs wl1 ++ resultSet_simple fs wl2) ∧
    discover_refined fs (wl1 ++ p :: wl2) =
      Except.ok (resultSet_refined fs wl1 ++ resultSet_refined fs wl2) := by
  have hs : discoverStep_simple fs p = none := by
    simp only [discoverStep_simple, h1]
    rfl
  have hr : discoverStep_refined fs p = none := by
    simp only [discoverStep_refined, h2]
    rfl
  constructor
  · simp only [discover_simple, resultSet_simple, List.filterMap_append,
      List.filterMap_cons, hs]
  · simp only [discover_refined, resultSet_refined, List.filterMap_append,
      List.filterMap_cons, hr]

/-- C8, witness: a single-entry whitelist `x` on an empty tree gives an
empty result set and no error in both variants. -/
theorem c8_missing_entry_witness :
    discover_simple (fun _ => FsNode.notFound) ([] ++ "x".toList :: []) =
      Except.ok (resultSet_simple (fun _ => FsNode.notFound) [] ++
        resultSet_simple (fun _ => FsNode.notFound) []) ∧
    discover_refined (fun _ => FsNode.notFound) ([] ++ "x".toList :: []) =
      Except.ok (resultSet_refined (fun _ => FsNode.notFound) [] ++
        resultSet_refined (fun _ => FsNode.notFound) []) :=
  c8_missing_entry (fun _ => FsNode.notFound) "x".toList [] [] rfl rfl

/-- C9.  A whitelist path not starting with `/` is joined under the
virtual tree root before cleaning and before the root-resolution
lookup: the cleaned lookup path equals `Clean(Clean("/" + p))` and is
absolute; in part_001 the `/sys` strip cannot fire on a relative path,
so both variants agree. -/
theorem c9_relative_rooted (p : List Char) (h : isAbs p = false) :
    rootJoinClean p = clean (clean ('/' :: p)) ∧
    (rootJoinClean p).head? = some '/' ∧
    rootJoinClean (stripSysPre p) = rootJoinClean p := by
  have h1 : rootJoinClean p = clean (clean ('/' :: p)) := by
    unfold rootJoinClean
    simp only [h, if_false, Bool.false_eq_true]
    unfold joinRoot
    rw [clean_slash_slash]
  refine ⟨h1, ?_, ?_⟩
  · rw [h1]
    exact clean_rooted (clean_rooted rfl)
  · have hstrip : stripSysPre p = p := by
      unfold stripSysPre
      by_cases hp : (p.take 4 == "/sys".toList) = true
      · exfalso
        have htake : p.take 4 = "/sys".toList := by simpa using hp
        cases p with
        | nil => simp [List.take] at htake
        | cons a rest =>
          have ha : a = '/' := by
            have := congrArg List.head? htake
            simpa [List.take] using this
          rw [isAbs, ha] at h
          simp at h
      · simp only [hp, if_false, Bool.false_eq_true]
    rw [hstrip]

/-- C9, witness at the relative entry `a`. -/
theorem c9_relative_rooted_witness :
    rootJoinClean "a".toList = clean (clean ('/' :: "a".toList)) ∧
    (rootJoinClean "a".toList).head? = some '/' ∧
    rootJoinClean (stripSysPre "a".toList) = rootJoinClean "a".toList :=
  c9_relative_rooted "a".toList (by decide)

/-- C10.  In part_001's `Discover` only, an entry whose first four
characters are `/sys` loses exactly those four characters before the
root-join and clean steps; `/sys/class/x` and `class/x` then normalize
to the same lookup path `/class/x` and the same attribute name, and
`/system` is rewritten to `tem`, which resolves to `/tem`. -/
theorem c10_sys_strip :
    (∀ p : List Char, p.take 4 = "/sys".toList →
      stripSysPre p = p.drop 4) ∧
    rootJoinClean (stripSysPre "/sys/class/x".toList) =
      rootJoinClean (stripSysPre "class/x".toList) ∧
    buildAttributeName55 (rootJoinClean (stripSysPre "/sys/class/x".toList)) =
      buildAttributeName55 (rootJoinClean (stripSysPre "class/x".toList)) ∧
    stripSysPre "/system".toList = "tem".toList ∧
    rootJoinClean (stripSysPre "/system".toList) = "/tem".toList := by
  refine ⟨?_, by decide, by decide, by decide, by decide⟩
  intro p hp
  unfold stripSysPre
  simp [hp]

/-- C10, witness for the universally quantified conjunct at the entry
`/sys/a`. -/
theorem c10_sys_strip_witness :
    stripSysPre "/sys/a".toList = "/sys/a".toList.drop 4 :=
  c10_sys_strip.1 "/sys/a".toList (by decide)

end Sysfs
